import Mathlib

/-!
Verification development for the blkreader crate.

The definitions below are a shallow embedding of `src/reader.rs`,
`src/state.rs`, `src/options.rs` and `src/cache.rs`.  Machine integers
(`u64`, `usize`) are modelled as `Nat`; the claims settled here only
concern executions in which the Rust arithmetic does not overflow, and
where a subtraction could underflow in the source the relevant theorem
either carries a hypothesis excluding it or exhibits the failure.
Buffer writes are recorded as an explicit trace of write operations
(with ghost fields recording the traversal cursor and the extent being
processed); applying the trace to a buffer reproduces the byte contents
the Rust code stores.
-/

set_option autoImplicit false
set_option maxHeartbeats 1000000

namespace Blkreader

/-- Extent flags as queried by `src/reader.rs`: the three predicates
`is_unwritten`, `is_unknown`, `is_delalloc` of `blkmap::ExtentFlags`. -/
structure ExtentFlags where
  is_unwritten : Bool
  is_unknown : Bool
  is_delalloc : Bool
deriving DecidableEq, Repr

/-- Flag set with no flag raised (`ExtentFlags::empty()`). -/
def ExtentFlags.empty : ExtentFlags := ⟨false, false, false⟩

/-- Mirror of `blkmap::FiemapExtent`: a logical-to-physical mapping. -/
structure FiemapExtent where
  logical : Nat
  physical : Nat
  length : Nat
  flags : ExtentFlags
deriving DecidableEq, Repr

/-- Mirror of `Options` in `src/options.rs` restricted to the fields the
read path in `src/reader.rs` consults.  The field `fill_unwritten` is the
flag called `zero_unwritten` in `src/options.rs` and `fill_unwritten` at
its use sites in `src/reader.rs`. -/
structure Options where
  enable_cache : Bool
  fill_holes : Bool
  fill_unwritten : Bool
  allow_fallback : Bool
deriving DecidableEq, Repr

/-- Default option values (`Options::default` in `src/options.rs`). -/
def Options.default : Options :=
  { enable_cache := true
    fill_holes := false
    fill_unwritten := false
    allow_fallback := false }

/-- Model of the opened block device: `byteAt p` is the byte stored at
physical offset `p`, and `readLen p l` determines how many bytes a
positioned read of `l` bytes at offset `p` actually returns (the OS
guarantees at most `l`, which the model enforces with `min`). -/
structure Device where
  byteAt : Nat → Nat
  readLen : Nat → Nat → Nat

/-- Trace of one buffer write performed by `read_from_device`.  The
`cursor` and extent arguments are ghost data recording the traversal
state at the moment the write was issued; `bufStart` is the index
`bytes_read` at which the slice begins. -/
inductive Write where
  /-- Zero fill for a hole before an extent (`buf[buf_start..buf_end].fill(0)`). -/
  | holeFill (cursor : Nat) (e : FiemapExtent) (bufStart len : Nat)
  /-- Zero fill for an unwritten extent. -/
  | unwrittenFill (cursor : Nat) (e : FiemapExtent) (bufStart len : Nat)
  /-- Zero fill for an UNKNOWN/DELALLOC extent. -/
  | unknownFill (cursor : Nat) (e : FiemapExtent) (bufStart len : Nat)
  /-- Positioned device read of `req` bytes at physical offset `phys`,
  returning `actual` bytes (`device.read_at`). -/
  | devRead (cursor : Nat) (e : FiemapExtent) (bufStart phys req actual : Nat)
  /-- Zero fill of the trailing remainder after the loop. -/
  | tailFill (bufStart len : Nat)
deriving DecidableEq, Repr

/-- Outcome of processing one extent in the loop body of
`read_from_device`: an early `return Ok(bytes_read)`, a `break` out of
the loop, or fall-through to the next extent. -/
inductive StepRes where
  | early (br : Nat) (ws : List Write)
  | brk (br co : Nat) (ws : List Write)
  | cont (br co : Nat) (ws : List Write)
deriving DecidableEq, Repr

/-- Prepend a write to the trace of a step outcome. -/
def StepRes.prepend (w : Write) : StepRes → StepRes
  | .early br ws => .early br (w :: ws)
  | .brk br co ws => .brk br co (w :: ws)
  | .cont br co ws => .cont br co (w :: ws)

/-- Outcome of the extent loop of `read_from_device`: `early` is a
`return Ok(bytes_read)` from inside the loop, `fell` covers both a
`break` and exhausting the extent list (after which the trailing-hole
code runs). -/
inductive LoopExit where
  | early (br : Nat) (ws : List Write)
  | fell (br co : Nat) (ws : List Write)
deriving DecidableEq, Repr

/-- Prepend writes to the trace of a loop exit. -/
def LoopExit.withPre (pre : List Write) : LoopExit → LoopExit
  | .early br ws => .early br (pre ++ ws)
  | .fell br co ws => .fell br co (pre ++ ws)

/-- The part of one loop iteration of `read_from_device` that follows the
hole handling: the UNWRITTEN branch, the UNKNOWN/DELALLOC branch and the
normal-extent device read (`src/reader.rs` lines 238 to 295). -/
def stepAfterHole (dev : Device) (opts : Options) (end_ : Nat)
    (e : FiemapExtent) (br co : Nat) : StepRes :=
  let extent_end := e.logical + e.length
  if e.flags.is_unwritten then
    if opts.fill_unwritten = false then .early br []
    else
      let read_start := max co e.logical
      let read_end := min extent_end end_
      let read_len := read_end - read_start
      .cont (br + read_len) read_end [.unwrittenFill co e br read_len]
  else if e.flags.is_unknown || e.flags.is_delalloc then
    let read_start := max co e.logical
    let read_end := min extent_end end_
    let hole_len := read_end - read_start
    if opts.fill_holes = false then .early br []
    else .cont (br + hole_len) read_end [.unknownFill co e br hole_len]
  else
    let read_start := max co e.logical
    let read_end := min extent_end end_
    let read_len := read_end - read_start
    let physical_offset := e.physical + (read_start - e.logical)
    let actual := min (dev.readLen physical_offset read_len) read_len
    if actual < read_len then
      .brk (br + actual) (read_start + actual)
        [.devRead co e br physical_offset read_len actual]
    else
      .cont (br + actual) (read_start + actual)
        [.devRead co e br physical_offset read_len actual]

/-- One full loop iteration of `read_from_device` for extent `e` with
`bytes_read = br` and `current_offset = co`: hole handling
(`src/reader.rs` lines 216 to 236) followed by `stepAfterHole`. -/
def stepExtent (dev : Device) (opts : Options) (end_ : Nat)
    (e : FiemapExtent) (br co : Nat) : StepRes :=
  if e.logical > co then
    let hole_end := min e.logical end_
    let hole_len := hole_end - co
    if opts.fill_holes = false then .early br []
    else if end_ ≤ hole_end then
      .brk (br + hole_len) hole_end [.holeFill co e br hole_len]
    else
      (stepAfterHole dev opts end_ e (br + hole_len) hole_end).prepend
        (.holeFill co e br hole_len)
  else stepAfterHole dev opts end_ e br co

/-- The extent loop of `read_from_device` (`for extent in extents`),
including the `if current_offset >= end break` guard at the top of each
iteration. -/
def readLoop (dev : Device) (opts : Options) (end_ : Nat) :
    List FiemapExtent → Nat → Nat → LoopExit
  | [], br, co => .fell br co []
  | e :: rest, br, co =>
    if end_ ≤ co then .fell br co []
    else
      match stepExtent dev opts end_ e br co with
      | .early br1 ws => .early br1 ws
      | .brk br1 co1 ws => .fell br1 co1 ws
      | .cont br1 co1 ws => (readLoop dev opts end_ rest br1 co1).withPre ws

/-- Embedding of `ReadContext::read_from_device` for a buffer of
`length` bytes at file offset `offset`: the extent loop followed by the
trailing-hole handling, returning the final `bytes_read` together with
the trace of buffer writes. -/
def read_from_device (dev : Device) (opts : Options) (length offset : Nat)
    (extents : List FiemapExtent) : Nat × List Write :=
  let end_ := offset + length
  match readLoop dev opts end_ extents 0 offset with
  | .early br ws => (br, ws)
  | .fell br co ws =>
    if co < end_ ∧ opts.fill_holes = true then
      let remaining := end_ - co
      if br + remaining ≤ length then (br + remaining, ws ++ [.tailFill br remaining])
      else (br, ws)
    else (br, ws)

/-- Loop body of `ReadContext::can_use_fallback` (`src/reader.rs` lines
142 to 166). -/
def canUseFallbackLoop (end_ : Nat) : List FiemapExtent → Nat → Bool
  | [], _ => false
  | e :: rest, current =>
    if e.logical > current then false
    else if e.flags.is_unwritten then false
    else if e.flags.is_unknown || e.flags.is_delalloc then false
    else
      let extent_end := e.logical + e.length
      if end_ ≤ extent_end then true
      else canUseFallbackLoop end_ rest extent_end

/-- Embedding of `ReadContext::can_use_fallback`. -/
def can_use_fallback (extents : List FiemapExtent) (offset length : Nat) : Bool :=
  if extents.isEmpty then false
  else canUseFallbackLoop (offset + length) extents offset

/-- Mirror of `State` in `src/state.rs`. -/
structure State where
  block_device_path : String
  extents : List FiemapExtent
  bytes_read : Nat
  used_fallback : Bool
deriving DecidableEq, Repr

/-- Mirror of `State::fallback`: empty device path, no extents and the
`used_fallback` flag set. -/
def State.fallback (bytes_read : Nat) : State :=
  { block_device_path := ""
    extents := []
    bytes_read := bytes_read
    used_fallback := true }

/-- Error kinds surfaced by the embedded `read_at`. -/
inductive ReadError where
  | unexpectedEof
deriving DecidableEq, Repr

/-- Model of the external collaborators of `ReadContext::read_at`: the
extent provider (`fiemap_range`), the device resolver (the resolved
device path), the opened block device, and the ordinary positioned file
read used by the fallback path (its result length, capped by the buffer
length as the OS guarantees). -/
structure Env where
  fiemap_range : Nat → Nat → List FiemapExtent
  device_path : String
  device : Device
  file_read_len : Nat → Nat → Nat

/-- Embedding of `ReadContext::read_at` for a buffer of `bufLen` bytes:
empty-buffer early return, extent query, empty-extent error, fallback
eligibility check, and otherwise the device read path. -/
def read_at (env : Env) (opts : Options) (bufLen offset : Nat) :
    Except ReadError State :=
  if bufLen = 0 then .ok (State.fallback 0)
  else
    let extents := env.fiemap_range offset bufLen
    if extents.isEmpty then .error .unexpectedEof
    else if opts.allow_fallback && can_use_fallback extents offset bufLen then
      .ok (State.fallback (min (env.file_read_len bufLen offset) bufLen))
    else
      .ok { block_device_path := env.device_path
            extents := extents
            bytes_read := (read_from_device env.device opts bufLen offset extents).1
            used_fallback := false }

/-- Start index of the buffer slice a write affects. -/
def Write.bufStart : Write → Nat
  | .holeFill _ _ s _ => s
  | .unwrittenFill _ _ s _ => s
  | .unknownFill _ _ s _ => s
  | .devRead _ _ s _ _ _ => s
  | .tailFill s _ => s

/-- Length of the buffer slice a write takes (`buf[buf_start..buf_end]`);
for a device read this is the requested length, even when the read comes
back short. -/
def Write.sliceLen : Write → Nat
  | .holeFill _ _ _ l => l
  | .unwrittenFill _ _ _ l => l
  | .unknownFill _ _ _ l => l
  | .devRead _ _ _ _ req _ => req
  | .tailFill _ l => l

/-- Number of bytes a write adds to `bytes_read`; for a device read this
is the actual number of bytes returned. -/
def Write.adv : Write → Nat
  | .devRead _ _ _ _ _ actual => actual
  | .holeFill _ _ _ l => l
  | .unwrittenFill _ _ _ l => l
  | .unknownFill _ _ _ l => l
  | .tailFill _ l => l

/-- Total advance of `bytes_read` over a trace. -/
def advSum : List Write → Nat
  | [] => 0
  | w :: ws => w.adv + advSum ws

/-- Apply one write to a buffer modelled as a function from index to
byte: zero fills store zeros, a device read stores the device bytes it
actually returned, leaving the rest of its slice untouched. -/
def applyWrite (dev : Device) (f : Nat → Nat) : Write → Nat → Nat
  | .holeFill _ _ s l => fun i => if s ≤ i ∧ i < s + l then 0 else f i
  | .unwrittenFill _ _ s l => fun i => if s ≤ i ∧ i < s + l then 0 else f i
  | .unknownFill _ _ s l => fun i => if s ≤ i ∧ i < s + l then 0 else f i
  | .devRead _ _ s p _ a => fun i => if s ≤ i ∧ i < s + a then dev.byteAt (p + (i - s)) else f i
  | .tailFill s l => fun i => if s ≤ i ∧ i < s + l then 0 else f i

/-- Apply a trace of writes, in order, to a buffer. -/
def applyWrites (dev : Device) (f : Nat → Nat) (ws : List Write) : Nat → Nat :=
  ws.foldl (applyWrite dev) f

/-- The writes of a trace are laid out back to back: each write starts
at the running `bytes_read`, its full slice stays within the buffer of
`length` bytes, and `bytes_read` then advances by the write's advance. -/
def chainedFrom (length : Nat) : Nat → List Write → Prop
  | _, [] => True
  | br, w :: ws => w.bufStart = br ∧ br + w.sliceLen ≤ length ∧ chainedFrom length (br + w.adv) ws

/-- Extent lists as the extent provider delivers them: ordered ascending
by logical offset and non-overlapping. -/
def sortedExtents (extents : List FiemapExtent) : Prop :=
  List.Chain' (fun a b => a.logical + a.length ≤ b.logical) extents

/-!
Model of `get_or_create_cached_device` in `src/cache.rs` for one fixed
device id.  The function runs two lock-protected sections, each atomic
under the `RwLock`: a shared-lock lookup, and on a miss an exclusive-lock
section that re-checks the map and only then opens the device and
inserts.  A caller is therefore a small state machine: `start` (has not
run the read-locked lookup yet), `missed` (lookup missed, has not yet
entered the write-locked section), `done h` (returned the `Arc` to
handle `h`).  Handles are numbered by the order in which device opens
happen, so two callers hold the same underlying resource exactly when
their handle numbers agree, and `opens` counts `CachedDevice::new`
calls. -/

/-- Program counter of one caller of `get_or_create_cached_device`. -/
inductive ThreadPC where
  | start
  | missed
  | done (h : Nat)
deriving DecidableEq, Repr

/-- Has this caller returned? -/
def ThreadPC.isDone : ThreadPC → Bool
  | .done _ => true
  | _ => false

/-- Shared state for one device id: the cache entry (the `HashMap` slot)
and how many device opens have happened. -/
structure CacheSt where
  entry : Option Nat
  opens : Nat
deriving DecidableEq, Repr

/-- One atomic step of a caller: from `start`, the read-locked lookup
(hit returns the entry, miss moves to `missed`); from `missed`, the
write-locked section (re-check, then open and insert on a true miss);
a finished caller does nothing. -/
def stepThread (st : CacheSt) : ThreadPC → CacheSt × ThreadPC
  | .start =>
    match st.entry with
    | some h => (st, .done h)
    | none => (st, .missed)
  | .missed =>
    match st.entry with
    | some h => (st, .done h)
    | none => (⟨some st.opens, st.opens + 1⟩, .done st.opens)
  | .done h => (st, .done h)

/-- Run a schedule: at each step the named caller (an index into the
list of program counters) executes one atomic step; indices out of
range do nothing. -/
def runSched : CacheSt → List ThreadPC → List Nat → CacheSt × List ThreadPC
  | st, pcs, [] => (st, pcs)
  | st, pcs, t :: rest =>
    match pcs.get? t with
    | none => runSched st pcs rest
    | some pc =>
      let p := stepThread st pc
      runSched p.1 (pcs.set t p.2) rest

/-- Invariant of the cache protocol: while no entry exists no open has
happened and no caller has returned; once an entry exists exactly one
open has happened and every returned caller holds that entry's handle. -/
def cacheInv (st : CacheSt) (pcs : List ThreadPC) : Prop :=
  match st.entry with
  | none => st.opens = 0 ∧ ∀ pc ∈ pcs, ∀ h, pc ≠ .done h
  | some h => st.opens = 1 ∧ ∀ pc ∈ pcs, ∀ h', pc = .done h' → h' = h

/-!
Concrete fixtures used by counterexamples and witnesses.
-/

/-- Device whose positioned reads always return the full requested
length; the byte at physical offset `p` is `p`. -/
def devFull : Device := ⟨fun p => p, fun _ l => l⟩

/-- Device whose positioned reads always return 50 bytes. -/
def devShort50 : Device := ⟨fun p => p, fun _ _ => 50⟩

/-- Default options with `fill_holes` enabled. -/
def optsFillHoles : Options := { Options.default with fill_holes := true }

/-- Default options with `fill_unwritten` enabled. -/
def optsFillUnwritten : Options := { Options.default with fill_unwritten := true }

/-- The extent of spec Scenario A. -/
def extA : FiemapExtent := ⟨0, 1000, 4096, ExtentFlags.empty⟩

/-- The extent of spec Scenario B. -/
def extB : FiemapExtent := ⟨100, 1000, 4096, ExtentFlags.empty⟩

/-- A 100-byte normal extent at the start of the file. -/
def ext5 : FiemapExtent := ⟨0, 0, 100, ExtentFlags.empty⟩

/-- An unwritten extent occupying logical range `[0, 50)`. -/
def extU50 : FiemapExtent := ⟨0, 7, 50, ⟨true, false, false⟩⟩

/-- Environment whose extent provider returns no extents. -/
def envEmpty : Env := ⟨fun _ _ => [], "", devFull, fun _ _ => 0⟩

/-!
Claim theorems.
-/

/-- C6, counterexample: called with an empty buffer the read succeeds
with `bytes_read = 0`, but the result is `State.fallback 0`, whose
`used_fallback` flag is set, contradicting the claim that the flag is
unset. -/
theorem C6_empty_buffer_counterexample :
    read_at envEmpty Options.default 0 7 = .ok (State.fallback 0) ∧
      ¬ (State.fallback 0).used_fallback = false :=
  ⟨rfl, by decide⟩

/-- C6, amended: a read with an empty buffer succeeds immediately with
`bytes_read = 0` and the `used_fallback` flag set (the result is exactly
`State.fallback 0`, with no extents and no device path), and the result
does not depend on the environment at all: no extent query and no I/O is
performed. -/
theorem C6_empty_buffer :
    ∀ (env : Env) (opts : Options) (offset : Nat),
      read_at env opts 0 offset = .ok (State.fallback 0) ∧
        (State.fallback 0).bytes_read = 0 ∧
        (State.fallback 0).used_fallback = true ∧
        (State.fallback 0).extents = [] := by
  intro env opts offset
  refine ⟨?_, rfl, rfl, rfl⟩
  simp [read_at]

/-- C7: a read with a non-empty buffer for which the extent provider
returns an empty extent list fails with `UnexpectedEof` rather than
returning a zero-byte success. -/
theorem C7_empty_extents_eof :
    ∀ (env : Env) (opts : Options) (bufLen offset : Nat),
      bufLen ≠ 0 → env.fiemap_range offset bufLen = [] →
      read_at env opts bufLen offset = .error .unexpectedEof := by
  intro env opts bufLen offset hne hempty
  simp [read_at, hne, hempty]

/-- Closed witness for `C7_empty_extents_eof` at a concrete input. -/
theorem C7_empty_extents_eof_witness :
    read_at envEmpty Options.default 5 7 = .error .unexpectedEof :=
  C7_empty_extents_eof envEmpty Options.default 5 7 (by decide) rfl

/-- C8: every `State` returned by a successful `read_at` is consistent:
if its `used_fallback` flag is set then its extent list is empty and its
block device path is unset. -/
theorem C8_state_consistency :
    ∀ (env : Env) (opts : Options) (bufLen offset : Nat) (s : State),
      read_at env opts bufLen offset = .ok s → s.used_fallback = true →
      s.extents = [] ∧ s.block_device_path = "" := by
  intro env opts bufLen offset s hok hfb
  simp only [read_at] at hok
  split at hok
  · cases hok
    exact ⟨rfl, rfl⟩
  · split at hok
    · cases hok
    · split at hok
      · cases hok
        exact ⟨rfl, rfl⟩
      · cases hok
        cases hfb

/-- Closed witness for `C8_state_consistency` at a concrete input. -/
theorem C8_state_consistency_witness :
    (State.fallback 0).extents = [] ∧ (State.fallback 0).block_device_path = "" :=
  C8_state_consistency envEmpty Options.default 0 7 (State.fallback 0) rfl (by decide)

/-!
Fallback eligibility (claim C4): a declarative characterization of
`can_use_fallback`, phrased over the cursor positions of the walk.
-/

/-- Cursor position of the fallback walk before processing extent `i`:
`cur` initially, and after extent `i` the end of extent `i`. -/
def fbCursor (cur : Nat) : List FiemapExtent → Nat → Nat
  | _, 0 => cur
  | [], _ + 1 => cur
  | e :: rest, i + 1 => fbCursor (e.logical + e.length) rest i

/-- The extent carries none of the UNWRITTEN, UNKNOWN, DELALLOC flags. -/
def flagClean (e : FiemapExtent) : Prop :=
  e.flags.is_unwritten = false ∧ e.flags.is_unknown = false ∧ e.flags.is_delalloc = false

/-- Declarative fallback eligibility: some prefix of the walk, up to
extent `k`, has no gap before any of its extents relative to the
advancing cursor, none of its extents is flagged, and after extent `k`
the cursor reaches or passes `end_`. -/
def fallbackWalkOk (cur end_ : Nat) (extents : List FiemapExtent) (k : Nat) : Prop :=
  (∀ i, i ≤ k → ∀ e, extents.get? i = some e →
    e.logical ≤ fbCursor cur extents i ∧ flagClean e) ∧
  end_ ≤ fbCursor cur extents (k + 1)

theorem fbCursor_zero (cur : Nat) (es : List FiemapExtent) : fbCursor cur es 0 = cur := by
  cases es <;> rfl

theorem fbCursor_cons (cur : Nat) (e : FiemapExtent) (rest : List FiemapExtent) (i : Nat) :
    fbCursor cur (e :: rest) (i + 1) = fbCursor (e.logical + e.length) rest i := rfl

theorem canUseFallbackLoop_iff (end_ : Nat) :
    ∀ (extents : List FiemapExtent) (cur : Nat),
      canUseFallbackLoop end_ extents cur = true ↔
        ∃ k, k < extents.length ∧ fallbackWalkOk cur end_ extents k := by
  intro extents
  induction extents with
  | nil =>
    intro cur
    simp [canUseFallbackLoop]
  | cons e rest ih =>
    intro cur
    by_cases hgap : e.logical > cur
    · simp only [canUseFallbackLoop, if_pos hgap]
      constructor
      · intro h
        cases h
      · rintro ⟨k, _, hok, _⟩
        have h0 := hok 0 (Nat.zero_le k) e rfl
        rw [fbCursor_zero] at h0
        omega
    · by_cases huw : e.flags.is_unwritten = true
      · simp only [canUseFallbackLoop, if_neg hgap, if_pos huw]
        constructor
        · intro h
          cases h
        · rintro ⟨k, _, hok, _⟩
          have h0 := hok 0 (Nat.zero_le k) e rfl
          exact absurd h0.2.1 (by simp [huw])
      · by_cases hud : (e.flags.is_unknown || e.flags.is_delalloc) = true
        · simp only [canUseFallbackLoop, if_neg hgap, huw, if_neg, Bool.false_eq_true,
            not_false_eq_true, hud, if_pos]
          constructor
          · intro h
            cases h
          · rintro ⟨k, _, hok, _⟩
            have h0 := hok 0 (Nat.zero_le k) e rfl
            rcases h0.2 with ⟨_, hu, hd⟩
            simp [hu, hd] at hud
        · by_cases hcov : end_ ≤ e.logical + e.length
          · simp only [canUseFallbackLoop, if_neg hgap, huw, Bool.false_eq_true,
              not_false_eq_true, if_neg, hud, if_pos hcov]
            constructor
            · intro _
              refine ⟨0, Nat.succ_pos _, ?_, ?_⟩
              · intro i hi e' hget
                interval_cases i
                cases hget
                rw [fbCursor_zero]
                refine ⟨by omega, ?_, ?_, ?_⟩
                · simpa using huw
                · simp only [Bool.or_eq_true] at hud
                  simpa using fun h => hud (Or.inl h)
                · simp only [Bool.or_eq_true] at hud
                  simpa using fun h => hud (Or.inr h)
              · rw [fbCursor_cons, fbCursor_zero]
                exact hcov
            · intro _
              trivial
          · simp only [canUseFallbackLoop, if_neg hgap, huw, Bool.false_eq_true,
              not_false_eq_true, if_neg, hud, if_neg hcov]
            rw [ih (e.logical + e.length)]
            constructor
            · rintro ⟨k, hk, hok, hend⟩
              refine ⟨k + 1, by simpa using Nat.succ_lt_succ hk, ?_, ?_⟩
              · intro i hi e' hget
                cases i with
                | zero =>
                  cases hget
                  rw [fbCursor_zero]
                  refine ⟨by omega, ?_, ?_, ?_⟩
                  · simpa using huw
                  · simp only [Bool.or_eq_true] at hud
                    simpa using fun h => hud (Or.inl h)
                  · simp only [Bool.or_eq_true] at hud
                    simpa using fun h => hud (Or.inr h)
                | succ j =>
                  rw [fbCursor_cons]
                  exact hok j (by omega) e' hget
              · rw [fbCursor_cons]
                exact hend
            · rintro ⟨k, hk, hok, hend⟩
              cases k with
              | zero =>
                rw [fbCursor_cons, fbCursor_zero] at hend
                omega
              | succ j =>
                refine ⟨j, by simpa using hk, ?_, ?_⟩
                · intro i hi e' hget
                  have := hok (i + 1) (by omega) e' hget
                  rwa [fbCursor_cons] at this
                · have := hend
                  rwa [fbCursor_cons] at this

/-- C4: fallback eligibility is decided exactly as the claim states: an
empty extent list is always ineligible, and a non-empty list is eligible
precisely when some prefix of the walk has no gap before any of its
extents relative to the advancing cursor starting at `offset`, carries
no UNWRITTEN, UNKNOWN or DELALLOC flag, and its last extent pushes the
cursor to or past `offset + length`. -/
theorem C4_fallback_eligibility :
    (∀ offset length, can_use_fallback [] offset length = false) ∧
    (∀ (extents : List FiemapExtent) (offset length : Nat),
      can_use_fallback extents offset length = true ↔
        ∃ k, k < extents.length ∧ fallbackWalkOk offset (offset + length) extents k) := by
  constructor
  · intro offset length
    rfl
  · intro extents offset length
    cases extents with
    | nil =>
      simp [can_use_fallback]
    | cons e rest =>
      rw [show can_use_fallback (e :: rest) offset length =
          canUseFallbackLoop (offset + length) (e :: rest) offset from rfl]
      exact canUseFallbackLoop_iff (offset + length) (e :: rest) offset

/-- Closed witness for `C4_fallback_eligibility`: Scenario A's extent
fully covers the range `[0, 100)`, so fallback is eligible. -/
theorem C4_fallback_eligibility_witness :
    can_use_fallback [extA] 0 100 = true := by
  refine (C4_fallback_eligibility.2 [extA] 0 100).mpr ⟨0, by decide, ?_, by decide⟩
  intro i hi e hget
  have hi0 : i = 0 := Nat.le_zero.mp hi
  subst hi0
  cases hget
  exact ⟨by decide, by decide, by decide, by decide⟩

/-!
The physical-offset law (claim C1), proved for every device read in the
trace of `read_from_device`.
-/

/-- Trace of a step outcome. -/
def StepRes.writes : StepRes → List Write
  | .early _ ws => ws
  | .brk _ _ ws => ws
  | .cont _ _ ws => ws

/-- Trace of a loop exit. -/
def LoopExit.writes : LoopExit → List Write
  | .early _ ws => ws
  | .fell _ _ ws => ws

theorem StepRes.writes_prepend (w : Write) (s : StepRes) :
    (s.prepend w).writes = w :: s.writes := by
  cases s <;> rfl

theorem LoopExit.writes_withPre (pre : List Write) (x : LoopExit) :
    (x.withPre pre).writes = pre ++ x.writes := by
  cases x <;> rfl

/-- The physical-offset law for a single trace entry: a device read
recorded at cursor `cur` for extent `e` reads at physical offset
`e.physical + (read_start - e.logical)` for exactly
`min (e.logical + e.length) end_ - read_start` requested bytes, where
`read_start = max cur e.logical`. -/
def devReadLaw (end_ : Nat) : Write → Prop
  | .devRead cur e _ p req _ =>
    p = e.physical + (max cur e.logical - e.logical) ∧
    req = min (e.logical + e.length) end_ - max cur e.logical
  | _ => True

theorem stepAfterHole_devReadLaw (dev : Device) (opts : Options) (end_ : Nat)
    (e : FiemapExtent) (br co : Nat) :
    ∀ w ∈ (stepAfterHole dev opts end_ e br co).writes, devReadLaw end_ w := by
  intro w hw
  unfold stepAfterHole at hw
  dsimp only at hw
  split at hw
  · split at hw
    · simp [StepRes.writes] at hw
    · simp only [StepRes.writes, List.mem_singleton] at hw
      subst hw
      trivial
  · split at hw
    · split at hw
      · simp [StepRes.writes] at hw
      · simp only [StepRes.writes, List.mem_singleton] at hw
        subst hw
        trivial
    · split at hw <;>
      · simp only [StepRes.writes, List.mem_singleton] at hw
        subst hw
        exact ⟨rfl, rfl⟩

theorem stepExtent_devReadLaw (dev : Device) (opts : Options) (end_ : Nat)
    (e : FiemapExtent) (br co : Nat) :
    ∀ w ∈ (stepExtent dev opts end_ e br co).writes, devReadLaw end_ w := by
  intro w hw
  unfold stepExtent at hw
  dsimp only at hw
  split at hw
  · split at hw
    · simp [StepRes.writes] at hw
    · split at hw
      · simp only [StepRes.writes, List.mem_singleton] at hw
        subst hw
        trivial
      · rw [StepRes.writes_prepend, List.mem_cons] at hw
        rcases hw with hw | hw
        · subst hw
          trivial
        · exact stepAfterHole_devReadLaw dev opts end_ e _ _ w hw
  · exact stepAfterHole_devReadLaw dev opts end_ e _ _ w hw

theorem readLoop_devReadLaw (dev : Device) (opts : Options) (end_ : Nat) :
    ∀ (es : List FiemapExtent) (br co : Nat),
      ∀ w ∈ (readLoop dev opts end_ es br co).writes, devReadLaw end_ w := by
  intro es
  induction es with
  | nil =>
    intro br co w hw
    simp [readLoop, LoopExit.writes] at hw
  | cons e rest ih =>
    intro br co w hw
    unfold readLoop at hw
    split at hw
    · simp [LoopExit.writes] at hw
    · split at hw
      next br1 ws heq =>
        simp only [LoopExit.writes] at hw
        exact stepExtent_devReadLaw dev opts end_ e br co w (by rw [heq]; exact hw)
      next br1 co1 ws heq =>
        simp only [LoopExit.writes] at hw
        exact stepExtent_devReadLaw dev opts end_ e br co w (by rw [heq]; exact hw)
      next br1 co1 ws heq =>
        rw [LoopExit.writes_withPre, List.mem_append] at hw
        rcases hw with hw | hw
        · exact stepExtent_devReadLaw dev opts end_ e br co w (by rw [heq]; exact hw)
        · exact ih br1 co1 w hw

/-- C1: every positioned device read issued by `read_from_device` for a
normal extent `e`, at traversal cursor `cur`, reads at physical offset
`e.physical + (read_start - e.logical)` for exactly
`min (e.logical + e.length) (offset + length) - read_start` bytes,
where `read_start = max cur e.logical`; the request offset and length
enter only through these formulas, independent of alignment. -/
theorem C1_physical_offset_law :
    ∀ (dev : Device) (opts : Options) (length offset : Nat)
      (extents : List FiemapExtent) (cur : Nat) (e : FiemapExtent) (s p req a : Nat),
      Write.devRead cur e s p req a ∈ (read_from_device dev opts length offset extents).2 →
      p = e.physical + (max cur e.logical - e.logical) ∧
      req = min (e.logical + e.length) (offset + length) - max cur e.logical := by
  intro dev opts length offset extents cur e s p req a hmem
  have hlaw : ∀ w ∈ (read_from_device dev opts length offset extents).2,
      devReadLaw (offset + length) w := by
    intro w hw
    unfold read_from_device at hw
    dsimp only at hw
    split at hw
    next br ws hx =>
      exact readLoop_devReadLaw dev opts (offset + length) extents 0 offset w
        (by rw [hx]; exact hw)
    next br co ws hx =>
      have hws : ∀ u ∈ ws, devReadLaw (offset + length) u := by
        intro u hu
        refine readLoop_devReadLaw dev opts (offset + length) extents 0 offset u ?_
        rw [hx]
        exact hu
      split at hw
      · split at hw
        · simp only [List.mem_append, List.mem_singleton] at hw
          rcases hw with hw | hw
          · exact hws w hw
          · subst hw
            trivial
        · exact hws w hw
      · exact hws w hw
  exact hlaw _ hmem

/-- Closed witness for `C1_physical_offset_law`: Scenario A's device
read at physical offset 1000 for 100 bytes. -/
theorem C1_physical_offset_law_witness :
    Write.devRead 0 extA 0 1000 100 100 ∈
        (read_from_device devFull Options.default 100 0 [extA]).2 ∧
      1000 = extA.physical + (max 0 extA.logical - extA.logical) ∧
      100 = min (extA.logical + extA.length) (0 + 100) - max 0 extA.logical :=
  ⟨by decide, C1_physical_offset_law devFull Options.default 100 0 [extA] 0 extA 0 1000 100 100
    (by decide)⟩

/-- An unwritten extent covering logical range `[0, 4096)`. -/
def extU : FiemapExtent := ⟨0, 500, 4096, ⟨true, false, false⟩⟩

/-- C2: hole handling.  Part one: at a gap before an extent with
`fill_holes` disabled the loop returns early (an `Ok` with the bytes
produced so far, not an error).  Part two: with `fill_holes` enabled the
iteration zero-fills exactly `min e.logical end_ - co` bytes, advances
the cursor to `min e.logical end_`, and continues processing the same
extent there, stopping the loop instead when the advanced cursor reaches
`end_`.  Parts three and four: Scenario B, with buffer contents. -/
theorem C2_gap_handling :
    (∀ (dev : Device) (opts : Options) (end_ : Nat) (e : FiemapExtent)
        (rest : List FiemapExtent) (br co : Nat),
      co < end_ → co < e.logical → opts.fill_holes = false →
      readLoop dev opts end_ (e :: rest) br co = .early br []) ∧
    (∀ (dev : Device) (opts : Options) (end_ : Nat) (e : FiemapExtent) (br co : Nat),
      co < end_ → co < e.logical → opts.fill_holes = true →
      (min e.logical end_ < end_ →
        stepExtent dev opts end_ e br co =
          (stepExtent dev opts end_ e (br + (min e.logical end_ - co))
            (min e.logical end_)).prepend (.holeFill co e br (min e.logical end_ - co))) ∧
      (end_ ≤ min e.logical end_ →
        stepExtent dev opts end_ e br co =
          .brk (br + (min e.logical end_ - co)) (min e.logical end_)
            [.holeFill co e br (min e.logical end_ - co)])) ∧
    (∀ dev : Device, read_from_device dev Options.default 200 0 [extB] = (0, [])) ∧
    (∀ (dev : Device) (f : Nat → Nat), 100 ≤ dev.readLen 1000 100 →
      read_from_device dev optsFillHoles 200 0 [extB] =
        (200, [.holeFill 0 extB 0 100, .devRead 100 extB 100 1000 100 100]) ∧
      (∀ i, i < 100 →
        applyWrites dev f (read_from_device dev optsFillHoles 200 0 [extB]).2 i = 0) ∧
      (∀ i, 100 ≤ i → i < 200 →
        applyWrites dev f (read_from_device dev optsFillHoles 200 0 [extB]).2 i =
          dev.byteAt (1000 + (i - 100)))) := by
  refine ⟨?_, ?_, ?_, ?_⟩
  · intro dev opts end_ e rest br co h1 h2 h3
    have hs : stepExtent dev opts end_ e br co = .early br [] := by
      simp [stepExtent, gt_iff_lt, h2, h3]
    simp [readLoop, Nat.not_le.mpr h1, hs]
  · intro dev opts end_ e br co h1 h2 h3
    constructor
    · intro hlt
      have hm : min e.logical end_ = e.logical := by omega
      rw [hm]
      have hgt : ¬ e.logical < e.logical := by omega
      have hne : ¬ end_ ≤ e.logical := by omega
      simp [stepExtent, gt_iff_lt, h2, h3, hne, hgt, hm]
    · intro hge
      simp [stepExtent, gt_iff_lt, h2, h3, hge]
  · intro dev
    rfl
  · intro dev f h
    have hmin : min (dev.readLen 1000 100) 100 = 100 := by omega
    have hrfd : read_from_device dev optsFillHoles 200 0 [extB] =
        (200, [.holeFill 0 extB 0 100, .devRead 100 extB 100 1000 100 100]) := by
      simp [read_from_device, readLoop, stepExtent, stepAfterHole, optsFillHoles,
        Options.default, extB, ExtentFlags.empty, StepRes.prepend, LoopExit.withPre, hmin]
    refine ⟨hrfd, ?_, ?_⟩
    · intro i hi
      have h1 : ¬ (100 ≤ i) := by omega
      simp [hrfd, applyWrites, applyWrite, h1, hi]
    · intro i hi1 hi2
      simp [hrfd, applyWrites, applyWrite, hi1, hi2]

/-- Closed witness for `C2_gap_handling`: Scenario B with `fill_holes`
enabled on a device with full reads gives `bytes_read = 200` with a
100-byte zero fill followed by a 100-byte device read at physical
offset 1000. -/
theorem C2_gap_handling_witness :
    read_from_device devFull optsFillHoles 200 0 [extB] =
      (200, [.holeFill 0 extB 0 100, .devRead 100 extB 100 1000 100 100]) :=
  (C2_gap_handling.2.2.2 devFull (fun _ => 0) (by decide)).1

/-- C3: unwritten-extent handling.  Part one: at an unwritten extent
with `fill_unwritten` disabled the loop returns early with the bytes
produced so far.  Part two: with `fill_unwritten` enabled the iteration
zero-fills exactly the overlap of `[co, end_)` with the extent, advances
the cursor past it, and continues with the remaining extents.  Part
three: Scenario C, a single unwritten extent spanning the whole
requested range gives `bytes_read = 0` when disabled and
`bytes_read = length` with an all-zero buffer when enabled. -/
theorem C3_unwritten_handling :
    (∀ (dev : Device) (opts : Options) (end_ : Nat) (e : FiemapExtent)
        (rest : List FiemapExtent) (br co : Nat),
      co < end_ → e.logical ≤ co → e.flags.is_unwritten = true →
      opts.fill_unwritten = false →
      readLoop dev opts end_ (e :: rest) br co = .early br []) ∧
    (∀ (dev : Device) (opts : Options) (end_ : Nat) (e : FiemapExtent)
        (rest : List FiemapExtent) (br co : Nat),
      co < end_ → e.logical ≤ co → e.flags.is_unwritten = true →
      opts.fill_unwritten = true →
      readLoop dev opts end_ (e :: rest) br co =
        (readLoop dev opts end_ rest
            (br + (min (e.logical + e.length) end_ - max co e.logical))
            (min (e.logical + e.length) end_)).withPre
          [.unwrittenFill co e br (min (e.logical + e.length) end_ - max co e.logical)]) ∧
    (∀ (dev : Device) (offset length : Nat) (e : FiemapExtent),
      0 < length → e.flags.is_unwritten = true → e.logical ≤ offset →
      offset + length ≤ e.logical + e.length →
      read_from_device dev Options.default length offset [e] = (0, []) ∧
      (read_from_device dev optsFillUnwritten length offset [e]).1 = length ∧
      (∀ (f : Nat → Nat) (i : Nat), i < length →
        applyWrites dev f (read_from_device dev optsFillUnwritten length offset [e]).2 i = 0)) := by
  refine ⟨?_, ?_, ?_⟩
  · intro dev opts end_ e rest br co h1 h2 h3 h4
    have hng : ¬ (co < e.logical) := by omega
    have hs : stepExtent dev opts end_ e br co = .early br [] := by
      simp [stepExtent, stepAfterHole, gt_iff_lt, hng, h3, h4]
    simp [readLoop, Nat.not_le.mpr h1, hs]
  · intro dev opts end_ e rest br co h1 h2 h3 h4
    have hng : ¬ (co < e.logical) := by omega
    have hs : stepExtent dev opts end_ e br co =
        .cont (br + (min (e.logical + e.length) end_ - max co e.logical))
          (min (e.logical + e.length) end_)
          [.unwrittenFill co e br (min (e.logical + e.length) end_ - max co e.logical)] := by
      simp [stepExtent, stepAfterHole, gt_iff_lt, hng, h3, h4]
    simp [readLoop, Nat.not_le.mpr h1, hs]
  · intro dev offset length e hlen huw hlog hcov
    have hnl : ¬ (offset + length ≤ offset) := by omega
    have hng : ¬ (offset < e.logical) := by omega
    have hmax : max offset e.logical = offset := by omega
    have hmin2 : min (e.logical + e.length) (offset + length) = offset + length := by omega
    have hsub : offset + length - offset = length := by omega
    have hrfd : read_from_device dev optsFillUnwritten length offset [e] =
        (length, [.unwrittenFill offset e 0 length]) := by
      simp [read_from_device, readLoop, stepExtent, stepAfterHole, optsFillUnwritten,
        Options.default, gt_iff_lt, hng, huw, hmax, hmin2, hsub, hnl, LoopExit.withPre]
    refine ⟨?_, ?_, ?_⟩
    · simp [read_from_device, readLoop, stepExtent, stepAfterHole, Options.default,
        gt_iff_lt, hng, huw, hnl]
    · rw [hrfd]
    · intro f i hi
      simp [hrfd, applyWrites, applyWrite, hi]

/-- Closed witness for `C3_unwritten_handling`: Scenario C on an
unwritten extent covering `[0, 4096)` with a 300-byte request. -/
theorem C3_unwritten_handling_witness :
    read_from_device devFull Options.default 300 0 [extU] = (0, []) ∧
      (read_from_device devFull optsFillUnwritten 300 0 [extU]).1 = 300 := by
  have h := C3_unwritten_handling.2.2 devFull 0 300 extU (by decide) (by decide)
    (by decide) (by decide)
  exact ⟨h.1, h.2.1⟩

/-- C5, counterexample: with `fill_holes` enabled, a short device read
(50 of 100 requested bytes) does stop the traversal, but the
trailing-fill code then zero-fills the remainder, so the returned
`bytes_read` is 100, not the 50 bytes produced up to and including the
short read as the claim states. -/
theorem C5_short_read_counterexample :
    read_from_device devShort50 optsFillHoles 100 0 [ext5] =
      (100, [.devRead 0 ext5 0 0 100 50, .tailFill 50 50]) ∧ ¬ (100 = 0 + 50) := by
  exact ⟨by decide, by decide⟩

/-- C5, amended: a short device read stops the extent traversal
immediately (no further extent is processed) after advancing the
produced count by the actual amount, and the operation still returns
successfully; when `fill_holes` is false the returned `bytes_read`
equals the bytes produced up to and including the short read, but when
`fill_holes` is true the trailing-fill step afterwards zero-fills the
remainder up to the requested end, making `bytes_read` the full
requested length. -/
theorem C5_short_read :
    (∀ (dev : Device) (opts : Options) (end_ : Nat) (e : FiemapExtent)
        (rest : List FiemapExtent) (br co : Nat),
      co < end_ → e.logical ≤ co → flagClean e →
      min (dev.readLen (e.physical + (co - e.logical)) (min (e.logical + e.length) end_ - co))
          (min (e.logical + e.length) end_ - co) < min (e.logical + e.length) end_ - co →
      readLoop dev opts end_ (e :: rest) br co =
        .fell
          (br + min (dev.readLen (e.physical + (co - e.logical))
              (min (e.logical + e.length) end_ - co)) (min (e.logical + e.length) end_ - co))
          (co + min (dev.readLen (e.physical + (co - e.logical))
              (min (e.logical + e.length) end_ - co)) (min (e.logical + e.length) end_ - co))
          [.devRead co e br (e.physical + (co - e.logical))
            (min (e.logical + e.length) end_ - co)
            (min (dev.readLen (e.physical + (co - e.logical))
              (min (e.logical + e.length) end_ - co)) (min (e.logical + e.length) end_ - co))]) ∧
    (∀ (dev : Device) (offset length : Nat) (e : FiemapExtent),
      0 < length → e.logical ≤ offset → offset + length ≤ e.logical + e.length →
      flagClean e →
      dev.readLen (e.physical + (offset - e.logical)) length < length →
      read_from_device dev Options.default length offset [e] =
        (dev.readLen (e.physical + (offset - e.logical)) length,
          [.devRead offset e 0 (e.physical + (offset - e.logical)) length
            (dev.readLen (e.physical + (offset - e.logical)) length)]) ∧
      (read_from_device dev optsFillHoles length offset [e]).1 = length) := by
  constructor
  · intro dev opts end_ e rest br co h1 h2 hfc hshort
    obtain ⟨hu, hk, hd⟩ := hfc
    have hng : ¬ (co < e.logical) := by omega
    have hmax : max co e.logical = co := by omega
    have hs : stepExtent dev opts end_ e br co =
        .brk
          (br + min (dev.readLen (e.physical + (co - e.logical))
              (min (e.logical + e.length) end_ - co)) (min (e.logical + e.length) end_ - co))
          (co + min (dev.readLen (e.physical + (co - e.logical))
              (min (e.logical + e.length) end_ - co)) (min (e.logical + e.length) end_ - co))
          [.devRead co e br (e.physical + (co - e.logical))
            (min (e.logical + e.length) end_ - co)
            (min (dev.readLen (e.physical + (co - e.logical))
              (min (e.logical + e.length) end_ - co)) (min (e.logical + e.length) end_ - co))] := by
      simp [stepExtent, stepAfterHole, gt_iff_lt, hng, hu, hk, hd, hmax, hshort]
    simp [readLoop, Nat.not_le.mpr h1, hs]
  · intro dev offset length e hlen hlog hcov hfc hshort
    obtain ⟨hu, hk, hd⟩ := hfc
    have hng : ¬ (offset < e.logical) := by omega
    have hmax : max offset e.logical = offset := by omega
    have hmin2 : min (e.logical + e.length) (offset + length) = offset + length := by omega
    have hsub : offset + length - offset = length := by omega
    have hminr : min (dev.readLen (e.physical + (offset - e.logical)) length) length =
        dev.readLen (e.physical + (offset - e.logical)) length := by omega
    have hnl : ¬ (offset + length ≤ offset) := by omega
    have hs : ∀ opts : Options, stepExtent dev opts (offset + length) e 0 offset =
        .brk (dev.readLen (e.physical + (offset - e.logical)) length)
          (offset + dev.readLen (e.physical + (offset - e.logical)) length)
          [.devRead offset e 0 (e.physical + (offset - e.logical)) length
            (dev.readLen (e.physical + (offset - e.logical)) length)] := by
      intro opts
      simp [stepExtent, stepAfterHole, gt_iff_lt, hng, hu, hk, hd, hmax, hmin2, hsub,
        hminr, hshort]
    constructor
    · simp [read_from_device, readLoop, Options.default, hnl, hs]
    · have hco : offset + dev.readLen (e.physical + (offset - e.logical)) length <
          offset + length := by omega
      have hrem : offset + length -
          (offset + dev.readLen (e.physical + (offset - e.logical)) length) =
          length - dev.readLen (e.physical + (offset - e.logical)) length := by omega
      have hguard : dev.readLen (e.physical + (offset - e.logical)) length +
          (length - dev.readLen (e.physical + (offset - e.logical)) length) ≤ length := by omega
      have htot : dev.readLen (e.physical + (offset - e.logical)) length +
          (length - dev.readLen (e.physical + (offset - e.logical)) length) = length := by omega
      simp [read_from_device, readLoop, optsFillHoles, Options.default, hnl, hs, hco,
        hrem, hguard, htot]

/-- Closed witness for `C5_short_read`: a device returning 50 of 100
requested bytes on a fully covering extent gives `bytes_read = 50` with
`fill_holes` disabled and `bytes_read = 100` with it enabled. -/
theorem C5_short_read_witness :
    read_from_device devShort50 Options.default 100 0 [ext5] =
      (devShort50.readLen (ext5.physical + (0 - ext5.logical)) 100,
        [.devRead 0 ext5 0 (ext5.physical + (0 - ext5.logical)) 100
          (devShort50.readLen (ext5.physical + (0 - ext5.logical)) 100)]) ∧
      (read_from_device devShort50 optsFillHoles 100 0 [ext5]).1 = 100 :=
  C5_short_read.2 devShort50 0 100 ext5 (by decide) (by decide) (by decide)
    ⟨rfl, rfl, rfl⟩ (by decide)

/-!
The traversal invariant (claim C10): the cursor tracks
`offset + bytes_read`, every buffer slice stays in bounds, and the final
`bytes_read` never exceeds the buffer length.
-/

theorem advSum_append (ws ws' : List Write) :
    advSum (ws ++ ws') = advSum ws + advSum ws' := by
  induction ws with
  | nil => simp [advSum]
  | cons w ws ih => simp [advSum, ih, Nat.add_assoc]

theorem chainedFrom_append (length : Nat) :
    ∀ (ws ws' : List Write) (br : Nat),
      chainedFrom length br ws → chainedFrom length (br + advSum ws) ws' →
      chainedFrom length br (ws ++ ws') := by
  intro ws
  induction ws with
  | nil =>
    intro ws' br _ h2
    simpa [advSum] using h2
  | cons w ws ih =>
    intro ws' br h1 h2
    obtain ⟨hs, hl, hrest⟩ := h1
    refine ⟨hs, hl, ih ws' (br + w.adv) hrest ?_⟩
    have : br + advSum (w :: ws) = br + w.adv + advSum ws := by
      simp [advSum, Nat.add_assoc]
    rw [← this]
    exact h2

/-- Invariant satisfied by the outcome of one loop iteration started at
`bytes_read = br`: the new `bytes_read` is `br` plus the trace's
advance, the trace is laid out back to back within the buffer, and for
outcomes that keep the loop state the new cursor equals
`offset + bytes_read`, stays within the request, and (when the loop
continues) does not pass the end of the processed extent. -/
def stepOk (length offset eend br : Nat) : StepRes → Prop
  | .early br1 ws => br1 = br + advSum ws ∧ chainedFrom length br ws ∧ br1 ≤ length
  | .brk br1 co1 ws => br1 = br + advSum ws ∧ chainedFrom length br ws ∧
      co1 = offset + br1 ∧ co1 ≤ offset + length
  | .cont br1 co1 ws => br1 = br + advSum ws ∧ chainedFrom length br ws ∧
      co1 = offset + br1 ∧ co1 ≤ offset + length ∧ co1 ≤ eend

/-- Invariant satisfied by the loop exit started at `bytes_read = br`. -/
def loopOk (length offset br : Nat) : LoopExit → Prop
  | .early br1 ws => br1 = br + advSum ws ∧ chainedFrom length br ws ∧ br1 ≤ length
  | .fell br1 co1 ws => br1 = br + advSum ws ∧ chainedFrom length br ws ∧
      co1 = offset + br1 ∧ co1 ≤ offset + length

theorem stepOk_prepend (length offset eend br br' : Nat) (w : Write) (s : StepRes)
    (hok : stepOk length offset eend br' s) (hbs : w.bufStart = br)
    (hsl : br + w.sliceLen ≤ length) (hadv : br' = br + w.adv) :
    stepOk length offset eend br (s.prepend w) := by
  cases s with
  | early br1 ws =>
    obtain ⟨h1, h2, h3⟩ := hok
    exact ⟨by simp [advSum]; omega, ⟨hbs, hsl, by rw [← hadv]; exact h2⟩, h3⟩
  | brk br1 co1 ws =>
    obtain ⟨h1, h2, h3, h4⟩ := hok
    exact ⟨by simp [advSum]; omega, ⟨hbs, hsl, by rw [← hadv]; exact h2⟩, h3, h4⟩
  | cont br1 co1 ws =>
    obtain ⟨h1, h2, h3, h4, h5⟩ := hok
    exact ⟨by simp [advSum]; omega, ⟨hbs, hsl, by rw [← hadv]; exact h2⟩, h3, h4, h5⟩

theorem loopOk_withPre (length offset br br' : Nat) (ws : List Write) (x : LoopExit)
    (hok : loopOk length offset br' x) (hch : chainedFrom length br ws)
    (hadv : br' = br + advSum ws) :
    loopOk length offset br (x.withPre ws) := by
  cases x with
  | early br1 ws1 =>
    obtain ⟨h1, h2, h3⟩ := hok
    refine ⟨by rw [advSum_append]; omega, ?_, h3⟩
    exact chainedFrom_append length ws ws1 br hch (by rw [← hadv]; exact h2)
  | fell br1 co1 ws1 =>
    obtain ⟨h1, h2, h3, h4⟩ := hok
    refine ⟨by rw [advSum_append]; omega, ?_, h3, h4⟩
    exact chainedFrom_append length ws ws1 br hch (by rw [← hadv]; exact h2)

theorem stepAfterHole_ok (dev : Device) (opts : Options) (offset length : Nat)
    (e : FiemapExtent) (br co : Nat)
    (hco : co = offset + br) (hlt : co < offset + length)
    (hlog : e.logical ≤ co) (hend : co ≤ e.logical + e.length) :
    stepOk length offset (e.logical + e.length) br
      (stepAfterHole dev opts (offset + length) e br co) := by
  unfold stepAfterHole
  dsimp only
  split
  case isTrue huw =>
    split
    case isTrue hnf => exact ⟨by simp [advSum], trivial, by omega⟩
    case isFalse hf =>
      refine ⟨?_, ⟨rfl, ?_, trivial⟩, ?_, ?_, ?_⟩ <;>
        (try simp only [advSum, Write.adv, Write.sliceLen]) <;> omega
  case isFalse huw =>
    split
    case isTrue hud =>
      split
      case isTrue hnf => exact ⟨by simp [advSum], trivial, by omega⟩
      case isFalse hf =>
        refine ⟨?_, ⟨rfl, ?_, trivial⟩, ?_, ?_, ?_⟩ <;>
          (try simp only [advSum, Write.adv, Write.sliceLen]) <;> omega
    case isFalse hud =>
      split
      case isTrue hshort =>
        refine ⟨?_, ⟨rfl, ?_, trivial⟩, ?_, ?_⟩ <;>
          (try simp only [advSum, Write.adv, Write.sliceLen]) <;> omega
      case isFalse hfull =>
        refine ⟨?_, ⟨rfl, ?_, trivial⟩, ?_, ?_, ?_⟩ <;>
          (try simp only [advSum, Write.adv, Write.sliceLen]) <;> omega

theorem stepExtent_ok (dev : Device) (opts : Options) (offset length : Nat)
    (e : FiemapExtent) (br co : Nat)
    (hco : co = offset + br) (hlt : co < offset + length)
    (hend : co ≤ e.logical + e.length) :
    stepOk length offset (e.logical + e.length) br
      (stepExtent dev opts (offset + length) e br co) := by
  unfold stepExtent
  dsimp only
  split
  case isTrue hgap =>
    split
    case isTrue hnf => exact ⟨by simp [advSum], trivial, by omega⟩
    case isFalse hf =>
      split
      case isTrue hcov =>
        refine ⟨?_, ⟨rfl, ?_, trivial⟩, ?_, ?_⟩ <;>
          (try simp only [advSum, Write.adv, Write.sliceLen]) <;> omega
      case isFalse hncov =>
        refine stepOk_prepend length offset (e.logical + e.length) br
          (br + (min e.logical (offset + length) - co)) _ _ ?_ rfl ?_ ?_
        · refine stepAfterHole_ok dev opts offset length e _ _ ?_ ?_ ?_ ?_ <;> omega
        · simp only [Write.sliceLen]
          omega
        · simp only [Write.adv]
  case isFalse hgap =>
    exact stepAfterHole_ok dev opts offset length e br co hco hlt (by omega) hend

theorem readLoop_ok (dev : Device) (opts : Options) (offset length : Nat) :
    ∀ (es : List FiemapExtent) (br co : Nat),
      co = offset + br → co ≤ offset + length →
      sortedExtents es →
      (∀ e0, es.head? = some e0 → co ≤ e0.logical + e0.length) →
      loopOk length offset br (readLoop dev opts (offset + length) es br co) := by
  intro es
  induction es with
  | nil =>
    intro br co hco hle _ _
    exact ⟨by simp [advSum], trivial, hco, hle⟩
  | cons e rest ih =>
    intro br co hco hle hsorted hhead
    unfold readLoop
    split
    · exact ⟨by simp [advSum], trivial, hco, hle⟩
    next hlt =>
      have hlt' : co < offset + length := by omega
      have hend : co ≤ e.logical + e.length := hhead e rfl
      have hstep := stepExtent_ok dev opts offset length e br co hco hlt' hend
      split
      next br1 ws heq =>
        rw [heq] at hstep
        exact hstep
      next br1 co1 ws heq =>
        rw [heq] at hstep
        exact hstep
      next br1 co1 ws heq =>
        rw [heq] at hstep
        obtain ⟨h1, h2, h3, h4, h5⟩ := hstep
        refine loopOk_withPre length offset br br1 ws _ ?_ h2 h1
        refine ih br1 co1 h3 h4 (List.Chain'.tail hsorted) ?_
        intro e0 h0
        cases rest with
        | nil => cases h0
        | cons e1 rest1 =>
          cases h0
          have hrel : e.logical + e.length ≤ e0.logical := by
            have := (List.chain'_cons.mp hsorted).1
            simpa using this
          omega

/-- C10, counterexample: for the sorted, non-overlapping extent list
`[extU50]` (a single unwritten extent entirely before the request
offset) and a request at offset 100, the traversal with
`fill_unwritten` enabled leaves the loop with cursor 50 and 0 bytes
produced, so the claimed invariant `cursor = offset + produced` fails
(in the Rust source this same input underflows
`read_end - read_start`). -/
theorem C10_cursor_invariant_counterexample :
    sortedExtents [extU50] ∧
      readLoop devFull optsFillUnwritten 200 [extU50] 0 100 =
        .fell 0 50 [.unwrittenFill 100 extU50 0 0] ∧
      ¬ (50 = 100 + 0) := by
  refine ⟨?_, by decide, by decide⟩
  simp [sortedExtents]

/-- C10, amended: for every extent list that is ordered ascending by
logical offset, non-overlapping, and in which every extent ends at or
after the request offset (as the extent provider guarantees for extents
intersecting the requested range), the traversal maintains
`cursor = offset + produced` at every loop exit, every zero-fill and
device-read slice of the trace stays within the buffer bounds, and the
returned `bytes_read` never exceeds the buffer length. -/
theorem C10_traversal_bounds :
    ∀ (dev : Device) (opts : Options) (offset length : Nat)
      (extents : List FiemapExtent),
      sortedExtents extents →
      (∀ e ∈ extents, offset ≤ e.logical + e.length) →
      (∀ br co ws,
        readLoop dev opts (offset + length) extents 0 offset = .fell br co ws →
        co = offset + br) ∧
      chainedFrom length 0 (read_from_device dev opts length offset extents).2 ∧
      (read_from_device dev opts length offset extents).1 ≤ length := by
  intro dev opts offset length extents hsorted hmem
  have hloop := readLoop_ok dev opts offset length extents 0 offset (by omega)
    (by omega) hsorted ?hd
  case hd =>
    intro e0 h0
    exact hmem e0 (List.mem_of_mem_head? h0)
  refine ⟨?_, ?_⟩
  · intro br co ws hfell
    rw [hfell] at hloop
    exact hloop.2.2.1
  · unfold read_from_device
    dsimp only
    split
    next br ws heq =>
      rw [heq] at hloop
      obtain ⟨h1, h2, h3⟩ := hloop
      exact ⟨h2, h3⟩
    next br co ws heq =>
      rw [heq] at hloop
      obtain ⟨h1, h2, h3, h4⟩ := hloop
      split
      next hcl =>
        have hguard : br + (offset + length - co) ≤ length := by omega
        rw [if_pos hguard]
        constructor
        · refine chainedFrom_append length ws [.tailFill br (offset + length - co)] 0 h2 ?_
          have hbr : 0 + advSum ws = br := by omega
          rw [hbr]
          exact ⟨rfl, by simp only [Write.sliceLen]; omega, trivial⟩
        · simp only
          omega
      next hcl =>
        exact ⟨h2, by omega⟩

/-- Closed witness for `C10_traversal_bounds` on a fully covering
normal extent. -/
theorem C10_traversal_bounds_witness :
    chainedFrom 100 0 (read_from_device devFull Options.default 100 0 [ext5]).2 ∧
      (read_from_device devFull Options.default 100 0 [ext5]).1 ≤ 100 :=
  (C10_traversal_bounds devFull Options.default 0 100 [ext5]
    (by simp [sortedExtents]) (by intro e he; simp at he; subst he; decide)).2

/-!
Claim C9: the double-checked cache protocol opens the device exactly
once and hands every caller the same handle.
-/

theorem cacheInv_entry_none {st : CacheSt} {pcs : List ThreadPC}
    (h : cacheInv st pcs) (he : st.entry = none) :
    st.opens = 0 ∧ ∀ pc ∈ pcs, ∀ h0, pc ≠ .done h0 := by
  unfold cacheInv at h
  rw [he] at h
  exact h

theorem cacheInv_entry_some {st : CacheSt} {pcs : List ThreadPC} {h0 : Nat}
    (h : cacheInv st pcs) (he : st.entry = some h0) :
    st.opens = 1 ∧ ∀ pc ∈ pcs, ∀ h', pc = .done h' → h' = h0 := by
  unfold cacheInv at h
  rw [he] at h
  exact h

theorem cacheInv_step (st : CacheSt) (pcs : List ThreadPC) (t : Nat) (pc : ThreadPC)
    (hinv : cacheInv st pcs) (hget : pcs.get? t = some pc) :
    cacheInv (stepThread st pc).1 (pcs.set t (stepThread st pc).2) := by
  have hmem : pc ∈ pcs := List.get?_mem hget
  obtain ⟨entry, opens⟩ := st
  cases pc with
  | start =>
    cases entry with
    | none =>
      obtain ⟨ho, hn⟩ := hinv
      refine ⟨ho, ?_⟩
      intro pc' hpc' h' heq
      rcases List.mem_or_eq_of_mem_set hpc' with hin | heq2
      · exact hn pc' hin h' heq
      · rw [heq2] at heq
        cases heq
    | some h0 =>
      obtain ⟨ho, hall⟩ := hinv
      refine ⟨ho, ?_⟩
      intro pc' hpc' h' heq
      rcases List.mem_or_eq_of_mem_set hpc' with hin | heq2
      · exact hall pc' hin h' heq
      · rw [heq2] at heq
        cases heq
        rfl
  | missed =>
    cases entry with
    | none =>
      obtain ⟨ho, hn⟩ := hinv
      have ho' : opens = 0 := ho
      refine ⟨(show opens + 1 = 1 by omega), ?_⟩
      intro pc' hpc' h' heq
      rcases List.mem_or_eq_of_mem_set hpc' with hin | heq2
      · exact absurd heq (hn pc' hin h')
      · rw [heq2] at heq
        cases heq
        rfl
    | some h0 =>
      obtain ⟨ho, hall⟩ := hinv
      refine ⟨ho, ?_⟩
      intro pc' hpc' h' heq
      rcases List.mem_or_eq_of_mem_set hpc' with hin | heq2
      · exact hall pc' hin h' heq
      · rw [heq2] at heq
        cases heq
        rfl
  | done h1 =>
    cases entry with
    | none =>
      obtain ⟨_, hn⟩ := hinv
      exact absurd rfl (hn _ hmem h1)
    | some h0 =>
      obtain ⟨ho, hall⟩ := hinv
      have hh1 : h1 = h0 := hall _ hmem h1 rfl
      refine ⟨ho, ?_⟩
      intro pc' hpc' h' heq
      rcases List.mem_or_eq_of_mem_set hpc' with hin | heq2
      · exact hall pc' hin h' heq
      · rw [heq2] at heq
        cases heq
        exact hh1

theorem runSched_length : ∀ (sched : List Nat) (st : CacheSt) (pcs : List ThreadPC),
    (runSched st pcs sched).2.length = pcs.length := by
  intro sched
  induction sched with
  | nil =>
    intro st pcs
    rfl
  | cons t rest ih =>
    intro st pcs
    unfold runSched
    cases hg : pcs.get? t with
    | none => exact ih st pcs
    | some pc =>
      dsimp only
      rw [ih]
      exact List.length_set pcs t _

theorem runSched_inv : ∀ (sched : List Nat) (st : CacheSt) (pcs : List ThreadPC),
    cacheInv st pcs →
    cacheInv (runSched st pcs sched).1 (runSched st pcs sched).2 := by
  intro sched
  induction sched with
  | nil =>
    intro st pcs h
    exact h
  | cons t rest ih =>
    intro st pcs h
    unfold runSched
    cases hg : pcs.get? t with
    | none => exact ih st pcs h
    | some pc =>
      dsimp only
      exact ih _ _ (cacheInv_step st pcs t pc h hg)

/-- C9: starting from an empty cache, for any number `n ≥ 1` of
concurrent callers of the get-or-create operation and any interleaving
of their lock-protected sections, once every caller has returned exactly
one device open has occurred and every caller holds the handle stored in
the cache — the same underlying resource. -/
theorem C9_cache_single_open :
    ∀ (n : Nat) (sched : List Nat), 0 < n →
      (∀ pc ∈ (runSched ⟨none, 0⟩ (List.replicate n .start) sched).2, pc.isDone = true) →
      (runSched ⟨none, 0⟩ (List.replicate n .start) sched).1.opens = 1 ∧
      ∃ h, (runSched ⟨none, 0⟩ (List.replicate n .start) sched).1.entry = some h ∧
        ∀ pc ∈ (runSched ⟨none, 0⟩ (List.replicate n .start) sched).2, pc = .done h := by
  intro n sched hn hdone
  have hinv0 : cacheInv ⟨none, 0⟩ (List.replicate n .start) := by
    refine ⟨rfl, ?_⟩
    intro pc hpc h heq
    rw [List.eq_of_mem_replicate hpc] at heq
    cases heq
  have hinv := runSched_inv sched ⟨none, 0⟩ (List.replicate n .start) hinv0
  have hlen : (runSched ⟨none, 0⟩ (List.replicate n .start) sched).2.length = n := by
    rw [runSched_length]
    exact List.length_replicate n _
  have hne : (runSched ⟨none, 0⟩ (List.replicate n .start) sched).2 ≠ [] := by
    intro hnil
    rw [hnil] at hlen
    simp at hlen
    omega
  obtain ⟨pc0, hpc0⟩ := List.exists_mem_of_ne_nil _ hne
  cases hent : (runSched ⟨none, 0⟩ (List.replicate n .start) sched).1.entry with
  | none =>
    obtain ⟨_, hnd⟩ := cacheInv_entry_none hinv hent
    have hd0 := hdone pc0 hpc0
    cases pc0 with
    | start => simp [ThreadPC.isDone] at hd0
    | missed => simp [ThreadPC.isDone] at hd0
    | done hh => exact absurd rfl (hnd _ hpc0 hh)
  | some h =>
    obtain ⟨ho, hall⟩ := cacheInv_entry_some hinv hent
    refine ⟨ho, h, rfl, ?_⟩
    intro pc hpc
    have hd := hdone pc hpc
    cases pc with
    | start => simp [ThreadPC.isDone] at hd
    | missed => simp [ThreadPC.isDone] at hd
    | done hh =>
      have hhh : hh = h := hall _ hpc hh rfl
      rw [hhh]

/-- Closed witness for `C9_cache_single_open`: two callers, the first
missing, opening and inserting, the second hitting on its read-locked
lookup. -/
theorem C9_cache_single_open_witness :
    (runSched ⟨none, 0⟩ (List.replicate 2 .start) [0, 0, 1]).1.opens = 1 ∧
      ∃ h, (runSched ⟨none, 0⟩ (List.replicate 2 .start) [0, 0, 1]).1.entry = some h ∧
        ∀ pc ∈ (runSched ⟨none, 0⟩ (List.replicate 2 .start) [0, 0, 1]).2, pc = .done h :=
  C9_cache_single_open 2 [0, 0, 1] (by decide) (by decide)

end Blkreader
